import Mathlib

/-!
Shallow embedding of the integer number-theory core of the `mpu` repository
(`mpu/math.py`): the incremental prime sieve `generate_primes`, the
trial-division `factorize`, and the derived primality test `is_prime`,
together with proofs of the specified properties.
-/

namespace Mpu

/-- Error values raised by `factorize` (both are `ValueError`s in the source,
distinguished by their message): `invalidInput` is raised when the argument is
not an `int` (message `integer expected, but type(number)=...`), and
`zeroFactorization` when the argument is exactly `0` (message
`All primes are prime factors of 0.`). -/
inductive FactorizeError where
  | invalidInput
  | zeroFactorization
deriving DecidableEq

/-- Argument of `factorize`/`is_prime`: either a Python `int`, or a value of
any other type — such as a `float`, whose numeric value is carried here as a
rational and is never inspected by the code, which only checks
`isinstance(number, int)`. -/
inductive PyNumber where
  | int : Int → PyNumber
  | float : Rat → PyNumber

/-- Fuel-driven integer square root, so that the kernel can evaluate it on
concrete inputs; `isqrtGo_eq_sqrt` below shows that with enough fuel it
computes `Nat.sqrt`. -/
def isqrtGo : Nat → Nat → Nat
  | 0, _ => 0
  | fuel + 1, n =>
    if n < 2 then n
    else
      let r := 2 * isqrtGo fuel (n / 4)
      if (r + 1) * (r + 1) ≤ n then r + 1 else r

/-- Integer (floor) square root with fuel `n`, which always suffices. -/
def isqrt (n : Nat) : Nat := isqrtGo n n

/-- Embeds `int(math_stl.ceil(number ** 0.5))` from `factorize` as the exact
ceiling of the square root of `n`.  This is an idealization: the source
computes the root in floating point, which is exact on the small concrete
inputs evaluated in this file, can drift from the exact root above roughly
`2^52`, and raises `OverflowError` for `number ≥ 2^1024` (the integer no
longer converts to a binary64 float) — an error path this model does not
represent. -/
def ceilSqrt (n : Nat) : Nat :=
  if isqrt n * isqrt n = n then isqrt n else isqrt n + 1

/-- The list of trial divisors scanned by the `for` loop of `factorize` on a
positive argument: `range(2, int(math_stl.ceil(number**0.5)) + 1)`, that is
`2, ..., ceilSqrt n`. -/
def trialRange (n : Nat) : List Nat :=
  List.range' 2 (ceilSqrt n + 1 - 2)

/-- First trial divisor of `n` found by the ascending scan in `factorize`
(the first `i` of the loop with `number % i == 0`). -/
def firstDivisor (n : Nat) : Option Nat :=
  (trialRange n).find? (fun i => n % i == 0)

/-- Body of `factorize` on a positive argument `n`, with explicit fuel
bounding the recursion depth (the recursion is on a strictly smaller
quotient, so fuel `n` always suffices; see `factorizePosGo_congr`).  The
source recursion is `factorize(int(number / i))` with Python float true
division; this model uses exact division instead.  When the branch is taken,
`i` divides `number`, and the float quotient equals the exact integer
quotient only while that quotient is below `2^53`: beyond it the source
mis-rounds (a binary64 float keeps 53 significand bits; see `floatRound64`),
so this model is faithful to the program only on inputs whose whole quotient
chain stays below `2^53`. -/
def factorizePosGo : Nat → Nat → List Nat
  | 0, n => [n]
  | fuel + 1, n =>
    match firstDivisor n with
    | some i => if i = n then [i] else i :: factorizePosGo fuel (n / i)
    | none => [n]

/-- The `else` branch of `factorize`: trial-division factorization of a
positive integer. -/
def factorizePos (n : Nat) : List Nat := factorizePosGo n n

/-- The factor list `factorize` returns for an `int` argument `n > 0`, as
Python ints. -/
def factorizePosList (n : Int) : List Int :=
  (factorizePos n.toNat).map (fun m : Nat => (m : Int))

/-- Embeds `factorize` on an `int` argument.  For `number < 0` the source
returns `[-1] + factorize(number * (-1))`; the callee's argument there is
positive, so that inner call deterministically reaches the trial-division
branch and returns normally — it is unfolded here. -/
def factorizeInt (n : Int) : Except FactorizeError (List Int) :=
  if n < 0 then .ok (-1 :: factorizePosList (n * (-1)))
  else if n = 0 then .error .zeroFactorization
  else .ok (factorizePosList n)

/-- Embeds `factorize`: the `isinstance(number, int)` guard rejects any
non-`int` argument before anything else happens, then the integer cases are
handled by `factorizeInt`. -/
def factorize : PyNumber → Except FactorizeError (List Int)
  | .int n => factorizeInt n
  | .float _ => .error .invalidInput

/-- Embeds `is_prime`: `return len(factorize(number)) == 1`, with any
exception from `factorize` propagating unchanged. -/
def is_prime (v : PyNumber) : Except FactorizeError Bool :=
  match factorize v with
  | .ok l => .ok (decide (l.length = 1))
  | .error e => .error e

/-- Fuel-driven bit length (number of binary digits) of a natural number;
fuel `n` always suffices. -/
def bitLenGo : Nat → Nat → Nat
  | 0, _ => 0
  | fuel + 1, n => if n = 0 then 0 else bitLenGo fuel (n / 2) + 1

/-- Bit length of a natural number. -/
def bitLen (n : Nat) : Nat := bitLenGo n n

/-- The nearest IEEE-754 binary64 value of an integer (53-bit significand,
round to nearest, ties to even), for magnitudes below the overflow threshold
`2^1024`.  CPython's true division `number / i` of two ints returns the
correctly rounded binary64 of the exact quotient, so when `i` divides
`number` the program's `int(number / i)` equals `floatRound64` of the exact
integer quotient — which differs from that quotient as soon as it reaches
`2^53 + 1`, the first integer a binary64 cannot represent. -/
def floatRound64 (q : Nat) : Nat :=
  if q < 2 ^ 53 then q
  else
    let e := bitLen q - 53
    let step := 2 ^ e
    let u := q / step
    let r := q % step
    if r * 2 < step then u * step
    else if r * 2 > step then (u + 1) * step
    else (if u % 2 = 0 then u else u + 1) * step

/-- State of the `generate_primes` generator between iterations of its loop:
the `divisors` dict — modelled as an insertion-ordered association list, like
a Python dict — and the `candidate` counter. -/
structure SieveState where
  divisors : List (Nat × List Nat)
  candidate : Nat

/-- Dict lookup: the value stored under `key`, if present
(`divisors[candidate]` / `candidate in divisors`). -/
def lookupVal : List (Nat × List Nat) → Nat → Option (List Nat)
  | [], _ => none
  | (k, v) :: m, key => if k = key then some v else lookupVal m key

/-- Dict lookup with default `[]` (convenient total form of `lookupVal`). -/
def lookupD (m : List (Nat × List Nat)) (key : Nat) : List Nat :=
  (lookupVal m key).getD []

/-- Embeds the Python membership test `key in divisors`. -/
def hasKey (m : List (Nat × List Nat)) (key : Nat) : Bool :=
  (lookupVal m key).isSome

/-- Embeds `divisors.setdefault(key, []).append(p)`: append `p` to the list
stored under `key`, creating the entry (at the end, as a dict insertion) if
absent. -/
def setdefaultAppend : List (Nat × List Nat) → Nat → Nat → List (Nat × List Nat)
  | [], key, p => [(key, [p])]
  | (k, v) :: m, key, p =>
    if k = key then (k, v ++ [p]) :: m else (k, v) :: setdefaultAppend m key p

/-- Embeds dict assignment `divisors[key] = v`: overwrite the entry if
present, otherwise insert it at the end. -/
def dictAssign : List (Nat × List Nat) → Nat → List Nat → List (Nat × List Nat)
  | [], key, v => [(key, v)]
  | (k, w) :: m, key, v =>
    if k = key then (k, v) :: m else (k, w) :: dictAssign m key v

/-- Embeds `del divisors[key]`. -/
def eraseKey : List (Nat × List Nat) → Nat → List (Nat × List Nat)
  | [], _ => []
  | (k, v) :: m, key => if k = key then m else (k, v) :: eraseKey m key

/-- Embeds the `for p in divisors[candidate]` loop of `generate_primes`:
re-register every witness `p` of the current composite under its next
multiple `p + candidate`. -/
def registerAll (m : List (Nat × List Nat)) (c : Nat) (L : List Nat) :
    List (Nat × List Nat) :=
  L.foldl (fun d p => setdefaultAppend d (p + c) p) m

/-- One iteration of the `while True` loop of `generate_primes`, returning
the new state and the yielded prime, if any. -/
def sieveStep (s : SieveState) : SieveState × Option Nat :=
  match lookupVal s.divisors s.candidate with
  | some ps =>
    ⟨{ divisors := eraseKey (registerAll s.divisors s.candidate ps) s.candidate,
       candidate := s.candidate + 1 }, none⟩
  | none =>
    ⟨{ divisors := dictAssign s.divisors (s.candidate * s.candidate) [s.candidate],
       candidate := s.candidate + 1 }, some s.candidate⟩

/-- Run `generate_primes` for `n` loop iterations from its initial state
(`divisors = {}`, `candidate = 2`), collecting the yielded values in order. -/
def sieveRun : Nat → SieveState × List Nat
  | 0 => ⟨{ divisors := [], candidate := 2 }, []⟩
  | n + 1 =>
    let r := sieveRun n
    let s := sieveStep r.1
    ⟨s.1, r.2 ++ s.2.toList⟩

/-- The sieve state at the top of loop iteration `n` of `generate_primes`. -/
def sieveState (n : Nat) : SieveState := (sieveRun n).1

/-- The values yielded by `generate_primes` during its first `n` loop
iterations, in order. -/
def sieveOutputs (n : Nat) : List Nat := (sieveRun n).2

/-- The increasing list of all primes below `m`. -/
def primesList (m : Nat) : List Nat :=
  (List.range m).filter (fun k => decide (Nat.Prime k))

/-- The key under which prime `p` is registered in the `divisors` map when the
sieve's candidate counter stands at `c`: the least multiple of `p` that is at
least `p * p` and at least `c` (first `p * p` by the squared-seed rule, then
bumped by `p` each time its key is examined). -/
def keyOf (p c : Nat) : Nat :=
  if c ≤ p * p then p * p else p * ((c + p - 1) / p)

deriving instance DecidableEq for Except

/-! ### Square-root facts -/

theorem isqrtGo_eq_sqrt : ∀ fuel n, n ≤ fuel → isqrtGo fuel n = Nat.sqrt n := by
  intro fuel
  induction fuel with
  | zero => intro n hn; interval_cases n; rfl
  | succ f ih =>
    intro n hn
    rw [isqrtGo]
    by_cases h2 : n < 2
    · interval_cases n <;> simp
    · simp only [if_neg h2]
      have hrec : isqrtGo f (n / 4) = Nat.sqrt (n / 4) := ih _ (by omega)
      rw [hrec]
      set s := Nat.sqrt (n / 4) with hs
      have h1 : s * s ≤ n / 4 := Nat.sqrt_le (n / 4)
      have h2' : n / 4 < (s + 1) * (s + 1) := Nat.lt_succ_sqrt (n / 4)
      have hlo : 4 * (s * s) ≤ n := by
        calc 4 * (s * s) ≤ 4 * (n / 4) := Nat.mul_le_mul_left 4 h1
        _ ≤ n := by omega
      have hhi : n < 4 * ((s + 1) * (s + 1)) := by
        have h3 : n / 4 + 1 ≤ (s + 1) * (s + 1) := h2'
        have h4 : 4 * (n / 4 + 1) ≤ 4 * ((s + 1) * (s + 1)) := Nat.mul_le_mul_left 4 h3
        omega
      by_cases hb : (2 * s + 1) * (2 * s + 1) ≤ n
      · rw [if_pos hb]
        have hle : 2 * s + 1 ≤ Nat.sqrt n := Nat.le_sqrt.mpr hb
        have hlt : Nat.sqrt n < 2 * s + 2 := by
          rw [Nat.sqrt_lt]
          have he : (2 * s + 2) * (2 * s + 2) = 4 * ((s + 1) * (s + 1)) := by ring
          omega
        omega
      · rw [if_neg hb]
        have hlt : Nat.sqrt n < 2 * s + 1 := by rw [Nat.sqrt_lt]; omega
        have hle : 2 * s ≤ Nat.sqrt n := by
          apply Nat.le_sqrt.mpr
          have he : 2 * s * (2 * s) = 4 * (s * s) := by ring
          omega
        omega

theorem isqrt_eq_sqrt (n : Nat) : isqrt n = Nat.sqrt n := isqrtGo_eq_sqrt n n le_rfl

/-- The ceiling square root is large enough: `n ≤ ceilSqrt n ^ 2`. -/
theorem le_ceilSqrt_sq (n : Nat) : n ≤ ceilSqrt n * ceilSqrt n := by
  unfold ceilSqrt
  rw [isqrt_eq_sqrt]
  by_cases h : Nat.sqrt n * Nat.sqrt n = n
  · rw [if_pos h]; omega
  · rw [if_neg h]
    have h2 : n < (Nat.sqrt n + 1) * (Nat.sqrt n + 1) := Nat.lt_succ_sqrt n
    omega

/-- The ceiling square root is the least `k` with `n ≤ k * k`. -/
theorem ceilSqrt_le (n k : Nat) (h : n ≤ k * k) : ceilSqrt n ≤ k := by
  unfold ceilSqrt
  rw [isqrt_eq_sqrt]
  by_cases hsq : Nat.sqrt n * Nat.sqrt n = n
  · rw [if_pos hsq]
    by_contra hc
    have hk : k < Nat.sqrt n := by omega
    have : k * k < Nat.sqrt n * Nat.sqrt n := Nat.mul_self_lt_mul_self hk
    omega
  · rw [if_neg hsq]
    by_contra hc
    have hk : k ≤ Nat.sqrt n := by omega
    have h1 : k * k ≤ Nat.sqrt n * Nat.sqrt n := Nat.mul_le_mul hk hk
    have h2 : Nat.sqrt n * Nat.sqrt n ≤ n := Nat.sqrt_le n
    have h3 : k * k = n := by omega
    have h4 : Nat.sqrt n * Nat.sqrt n = n := by
      have h5 : Nat.sqrt n ≤ k := by
        by_contra hc2
        have : k * k < Nat.sqrt n * Nat.sqrt n := Nat.mul_self_lt_mul_self (by omega)
        omega
      have h6 : Nat.sqrt n = k := by omega
      rw [h6]; exact h3
    exact hsq h4

theorem sq_le_of_le_ceilSqrt {n k : Nat} (h : k * k ≤ n) : k ≤ ceilSqrt n := by
  by_contra hc
  have h1 : ceilSqrt n < k := by omega
  have h2 : ceilSqrt n * ceilSqrt n < k * k := Nat.mul_self_lt_mul_self h1
  have h3 := le_ceilSqrt_sq n
  omega

/-- For `n ≥ 3` the scan bound `ceilSqrt n` is strictly below `n`. -/
theorem ceilSqrt_lt_self {n : Nat} (h : 3 ≤ n) : ceilSqrt n < n := by
  have h1 : ceilSqrt n ≤ n - 1 := by
    apply ceilSqrt_le
    have h2 : 2 ≤ n - 1 := by omega
    have h3 : 2 * (n - 1) ≤ (n - 1) * (n - 1) := Nat.mul_le_mul_right (n - 1) h2
    omega
  omega

theorem ceilSqrt_le_one {n : Nat} (h : n ≤ 1) : ceilSqrt n ≤ 1 := by
  interval_cases n <;> decide

/-! ### The first trial divisor -/

/-- On the increasing list `range' s len`, `find?` returns the least element
satisfying the predicate. -/
theorem find?_range'_eq_some {p : Nat → Bool} {m : Nat} :
    ∀ (s len : Nat), s ≤ m → m < s + len → p m = true →
      (∀ k, s ≤ k → k < m → p k = false) →
      (List.range' s len).find? p = some m := by
  intro s len
  induction len generalizing s with
  | zero => intro h1 h2; omega
  | succ len ih =>
    intro h1 h2 h3 h4
    rw [List.range'_succ, List.find?]
    by_cases hs : s = m
    · subst hs; rw [h3]
    · rw [h4 s le_rfl (by omega)]
      exact ih (s + 1) (by omega) (by omega) h3 (fun k hk hkm => h4 k (by omega) hkm)

theorem firstDivisor_some {n i : Nat} (h : firstDivisor n = some i) :
    2 ≤ i ∧ i ≤ ceilSqrt n ∧ n % i = 0 := by
  have hmem := List.mem_of_find?_eq_some h
  have hp := List.find?_some h
  have hmod : n % i = 0 := by simpa using hp
  rw [trialRange, List.mem_range'_1] at hmem
  exact ⟨hmem.1, by omega, hmod⟩

/-- `firstDivisor` of `0` and `1` is `none` (the scan range is empty). -/
theorem firstDivisor_le_one {n : Nat} (h : n ≤ 1) : firstDivisor n = none := by
  interval_cases n <;> decide

/-- On a composite `n`, the ascending scan finds exactly the least prime
factor of `n`. -/
theorem firstDivisor_comp {n : Nat} (hn : 2 ≤ n) (hc : ¬ Nat.Prime n) :
    firstDivisor n = some n.minFac := by
  have hf : Nat.Prime n.minFac := Nat.minFac_prime (by omega)
  have hfd : n.minFac ∣ n := Nat.minFac_dvd n
  have hsq : n.minFac * n.minFac ≤ n := by
    have := Nat.minFac_sq_le_self (by omega) hc
    have hpow : n.minFac ^ 2 = n.minFac * n.minFac := sq n.minFac
    omega
  have hle : n.minFac ≤ ceilSqrt n := sq_le_of_le_ceilSqrt hsq
  have h2 : 2 ≤ n.minFac := hf.two_le
  apply find?_range'_eq_some 2 (ceilSqrt n + 1 - 2) h2 (by omega)
  · simp [Nat.mod_eq_zero_of_dvd hfd]
  · intro k hk2 hklt
    simp only [beq_eq_false_iff_ne, ne_eq]
    intro hmod
    have hkdvd : k ∣ n := Nat.dvd_of_mod_eq_zero hmod
    have := Nat.minFac_le_of_dvd hk2 hkdvd
    omega

/-- On a prime `n ≥ 3`, no trial divisor is found. -/
theorem firstDivisor_prime {n : Nat} (h3 : 3 ≤ n) (hp : Nat.Prime n) :
    firstDivisor n = none := by
  rw [firstDivisor, List.find?_eq_none]
  intro i hi
  rw [trialRange, List.mem_range'_1] at hi
  have hlt : ceilSqrt n < n := ceilSqrt_lt_self h3
  simp only [beq_eq_false_iff_ne, ne_eq, Bool.not_eq_true, beq_eq_false_iff_ne]
  intro hmod
  have hdvd : i ∣ n := Nat.dvd_of_mod_eq_zero (by simpa using hmod)
  rcases (Nat.Prime.eq_one_or_self_of_dvd hp i hdvd) with h1 | h1 <;> omega

/-- The least prime factor of a composite is a proper factor. -/
theorem minFac_lt_of_comp {n : Nat} (hn : 2 ≤ n) (hc : ¬ Nat.Prime n) :
    n.minFac < n := by
  have hf : Nat.Prime n.minFac := Nat.minFac_prime (by omega)
  have hfd : n.minFac ∣ n := Nat.minFac_dvd n
  have hle : n.minFac ≤ n := Nat.le_of_dvd (by omega) hfd
  rcases Nat.lt_or_ge n.minFac n with h | h
  · exact h
  · exfalso
    have : n.minFac = n := by omega
    rw [this] at hf
    exact hc hf

/-! ### Unfolding `factorizePos` -/

theorem factorizePosGo_zero : ∀ fuel, factorizePosGo fuel 0 = [0] := by
  intro fuel
  cases fuel <;> rfl

/-- The fuel does not matter as long as it is at least the argument. -/
theorem factorizePosGo_congr :
    ∀ n f g, n ≤ f → n ≤ g → factorizePosGo f n = factorizePosGo g n := by
  intro n
  induction n using Nat.strong_induction_on with
  | _ n ih =>
    intro f g hf hg
    rcases Nat.eq_zero_or_pos n with h0 | hpos
    · subst h0; rw [factorizePosGo_zero, factorizePosGo_zero]
    · obtain ⟨f', rfl⟩ : ∃ f', f = f' + 1 := ⟨f - 1, by omega⟩
      obtain ⟨g', rfl⟩ : ∃ g', g = g' + 1 := ⟨g - 1, by omega⟩
      rw [factorizePosGo, factorizePosGo]
      cases h : firstDivisor n with
      | none => rfl
      | some i =>
        show (if i = n then [i] else i :: factorizePosGo f' (n / i)) =
          (if i = n then [i] else i :: factorizePosGo g' (n / i))
        by_cases hin : i = n
        · rw [if_pos hin, if_pos hin]
        · rw [if_neg hin, if_neg hin]
          have hi := firstDivisor_some h
          have hlt : n / i < n := Nat.div_lt_self hpos (by omega)
          rw [ih (n / i) hlt f' g' (by omega) (by omega)]

theorem factorizePos_of_none {n : Nat} (h : firstDivisor n = none) :
    factorizePos n = [n] := by
  rcases Nat.eq_zero_or_pos n with h0 | hpos
  · subst h0; rfl
  · obtain ⟨m, rfl⟩ : ∃ m, n = m + 1 := ⟨n - 1, by omega⟩
    rw [factorizePos, factorizePosGo, h]

theorem factorizePos_of_some_self {n i : Nat} (h : firstDivisor n = some i)
    (heq : i = n) : factorizePos n = [i] := by
  rcases Nat.eq_zero_or_pos n with h0 | hpos
  · subst h0; rw [firstDivisor_le_one (by omega)] at h; cases h
  · obtain ⟨m, rfl⟩ : ∃ m, n = m + 1 := ⟨n - 1, by omega⟩
    rw [factorizePos, factorizePosGo, h]
    show (if i = m + 1 then [i] else i :: factorizePosGo m ((m + 1) / i)) = [i]
    rw [if_pos heq]

theorem factorizePos_of_some {n i : Nat} (h : firstDivisor n = some i)
    (hne : i ≠ n) : factorizePos n = i :: factorizePos (n / i) := by
  rcases Nat.eq_zero_or_pos n with h0 | hpos
  · subst h0; rw [firstDivisor_le_one (by omega)] at h; cases h
  · obtain ⟨m, rfl⟩ : ∃ m, n = m + 1 := ⟨n - 1, by omega⟩
    rw [factorizePos, factorizePosGo, h]
    show (if i = m + 1 then [i] else i :: factorizePosGo m ((m + 1) / i)) =
      i :: factorizePos ((m + 1) / i)
    rw [if_neg hne]
    have hi := firstDivisor_some h
    have hlt : (m + 1) / i < m + 1 := Nat.div_lt_self hpos (by omega)
    rw [factorizePosGo_congr ((m + 1) / i) m ((m + 1) / i) (by omega) le_rfl]
    rfl

/-! ### Structure of the factor list -/

/-- On a prime argument the scan finds no proper divisor (or, for `2`, finds
`i = number` itself), so the result is the singleton. -/
theorem factorizePos_of_prime {n : Nat} (hp : Nat.Prime n) : factorizePos n = [n] := by
  rcases Nat.lt_or_ge n 3 with h | h
  · have h2 : n = 2 := by have := hp.two_le; omega
    subst h2; decide
  · exact factorizePos_of_none (firstDivisor_prime h hp)

/-- On a composite argument the scan finds the least prime factor and recurses
on the quotient. -/
theorem factorizePos_of_comp {n : Nat} (hn : 2 ≤ n) (hc : ¬ Nat.Prime n) :
    factorizePos n = n.minFac :: factorizePos (n / n.minFac) := by
  have hlt := minFac_lt_of_comp hn hc
  exact factorizePos_of_some (firstDivisor_comp hn hc) (by omega)

theorem div_minFac_bounds {n : Nat} (hn : 2 ≤ n) (hc : ¬ Nat.Prime n) :
    2 ≤ n / n.minFac ∧ n / n.minFac < n := by
  have hf : Nat.Prime n.minFac := Nat.minFac_prime (by omega)
  have hd : n.minFac ∣ n := Nat.minFac_dvd n
  have hlt : n / n.minFac < n := Nat.div_lt_self (by omega) hf.one_lt
  have hmul : n / n.minFac * n.minFac = n := Nat.div_mul_cancel hd
  have h0 : n / n.minFac ≠ 0 := by intro h0; rw [h0] at hmul; omega
  have h1 : n / n.minFac ≠ 1 := by
    intro h1; rw [h1, Nat.one_mul] at hmul
    rw [hmul] at hf
    exact hc hf
  generalize hq : n / n.minFac = q at hlt h0 h1 ⊢
  omega

/-- In the exact-division model, the product of the returned factors is the
argument (the program achieves this only while every quotient stays below
`2^53`; see `floatRound64`). -/
theorem factorizePos_prod : ∀ n, 1 ≤ n → (factorizePos n).prod = n := by
  intro n
  induction n using Nat.strong_induction_on with
  | _ n ih =>
    intro h1
    by_cases hn2 : n < 2
    · have he : n = 1 := by omega
      subst he; decide
    · by_cases hp : Nat.Prime n
      · rw [factorizePos_of_prime hp]; simp
      · rw [factorizePos_of_comp (by omega) hp, List.prod_cons]
        obtain ⟨hq2, hqlt⟩ := div_minFac_bounds (by omega) hp
        rw [ih (n / n.minFac) hqlt (by omega)]
        exact Nat.mul_div_cancel' (Nat.minFac_dvd n)

/-- In the exact-division model, every returned factor of an argument `≥ 2`
is prime. -/
theorem factorizePos_prime_mem : ∀ n, 2 ≤ n → ∀ p ∈ factorizePos n, Nat.Prime p := by
  intro n
  induction n using Nat.strong_induction_on with
  | _ n ih =>
    intro h2 p hp
    by_cases hprime : Nat.Prime n
    · rw [factorizePos_of_prime hprime] at hp
      simp only [List.mem_singleton] at hp
      subst hp; exact hprime
    · rw [factorizePos_of_comp h2 hprime] at hp
      obtain ⟨hq2, hqlt⟩ := div_minFac_bounds h2 hprime
      rcases List.mem_cons.mp hp with h | h
      · subst h; exact Nat.minFac_prime (by omega)
      · exact ih (n / n.minFac) hqlt hq2 p h

/-- In the exact-division model, the returned factors are in non-decreasing
order. -/
theorem factorizePos_sorted : ∀ n, 1 ≤ n → (factorizePos n).Sorted (· ≤ ·) := by
  intro n
  induction n using Nat.strong_induction_on with
  | _ n ih =>
    intro h1
    by_cases hn2 : n < 2
    · have he : n = 1 := by omega
      subst he; decide
    · by_cases hp : Nat.Prime n
      · rw [factorizePos_of_prime hp]; simp
      · rw [factorizePos_of_comp (by omega) hp]
        obtain ⟨hq2, hqlt⟩ := div_minFac_bounds (by omega) hp
        rw [List.sorted_cons]
        refine ⟨?_, ih (n / n.minFac) hqlt (by omega)⟩
        intro b hb
        have hbp : Nat.Prime b := factorizePos_prime_mem (n / n.minFac) hq2 b hb
        have hbd : b ∣ n / n.minFac := by
          have hd := List.dvd_prod hb
          rwa [factorizePos_prod (n / n.minFac) (by omega)] at hd
        have hbn : b ∣ n := hbd.trans (Nat.div_dvd_of_dvd (Nat.minFac_dvd n))
        exact Nat.minFac_le_of_dvd hbp.two_le hbn

/-! ### The integer-level branches of `factorize` -/

theorem factorize_int_of_pos {n : Int} (h : 0 < n) :
    factorize (PyNumber.int n) =
      .ok ((factorizePos n.toNat).map (fun m : Nat => (m : Int))) := by
  show factorizeInt n = _
  rw [factorizeInt, if_neg (by omega), if_neg (by omega)]
  rfl

theorem factorize_int_of_neg {n : Int} (h : n < 0) :
    factorize (PyNumber.int n) =
      .ok (-1 :: (factorizePos (n * (-1)).toNat).map (fun m : Nat => (m : Int))) := by
  show factorizeInt n = _
  rw [factorizeInt, if_pos h]
  rfl

theorem prod_map_intCast (l : List Nat) :
    (l.map (fun m : Nat => (m : Int))).prod = (l.prod : Int) :=
  (@Nat.cast_list_prod Int _ l).symm

/-! ### Claims about `factorize` and `is_prime` -/

/-- C1 is violated by the program: the source recurses on
`int(number / i)`, Python float true division, which rounds the exact
quotient to binary64.  At `number = 2 * (2^53 + 1)` the first divisor is `2`
and the exact quotient `2^53 + 1` mis-rounds to `2^53` (the tie between the
representable neighbours `2^53` and `2^53 + 2` goes to even), so the program
returns fifty-four `2`s, whose product `2^54` is not `number`.  This theorem
evaluates the mis-rounded quotient and the resulting product mismatch at
that failing input. -/
theorem factorize_float_division_bug :
    floatRound64 (2 ^ 53 + 1) = 2 ^ 53 ∧
    floatRound64 (2 ^ 53 + 1) ≠ 2 ^ 53 + 1 ∧
    (List.replicate 54 (2 : Int)).prod ≠ 2 * (2 ^ 53 + 1) := by
  decide

/-- C2 is violated by the program: at `number = 3 * (2^53 + 1)` the source
finds the divisor `3` and recurses on `int(number / 3)`, whose exact value
`2^53 + 1` mis-rounds to `2^53`, so the program returns
`[3, 2, 2, ..., 2]` (fifty-three `2`s): the elements are not in
non-decreasing order and their product `3 * 2^53` is not `number`, so the
result is not the ordered prime factorization of `number`.  This theorem
evaluates the mis-rounded quotient and the order and product failures of the
resulting list at that failing input. -/
theorem factorize_float_order_bug :
    floatRound64 (2 ^ 53 + 1) = 2 ^ 53 ∧
    ¬ List.Sorted (· ≤ ·) ((3 : Int) :: List.replicate 53 2) ∧
    ((3 : Int) :: List.replicate 53 2).prod ≠ 3 * (2 ^ 53 + 1) := by
  decide

/-- C3: the code diverges from this claim.  `is_prime(1)` returns `True` —
`factorize(1) = [1]` has exactly one element and the source checks only
`len(factorize(number)) == 1`, with no special case for the unity marker —
while the claim requires `is_prime(1)` to be false; and `is_prime(0)` raises
instead of returning false.  This theorem records the actual behaviour of the
code at those inputs. -/
theorem is_prime_unity_divergence :
    is_prime (PyNumber.int 1) = Except.ok true ∧
    is_prime (PyNumber.int 0) = Except.error FactorizeError.zeroFactorization := by
  decide

/-- C5: `factorize` reports `invalidInput` exactly on non-integer arguments
(never silently truncating a float), reports `zeroFactorization` exactly on
the argument `0`, and `is_prime` propagates exactly these errors for the same
inputs, neither swallowing nor translating them. -/
theorem factorize_error_taxonomy :
    (∀ q : Rat, factorize (PyNumber.float q) =
      Except.error FactorizeError.invalidInput) ∧
    (∀ n : Int, factorize (PyNumber.int n) ≠
      Except.error FactorizeError.invalidInput) ∧
    (∀ v : PyNumber, factorize v = Except.error FactorizeError.zeroFactorization
      ↔ v = PyNumber.int 0) ∧
    (∀ v : PyNumber, ∀ e : FactorizeError,
      is_prime v = Except.error e ↔ factorize v = Except.error e) := by
  have hint : ∀ n : Int, n ≠ 0 →
      factorize (PyNumber.int n) ≠ Except.error FactorizeError.invalidInput ∧
      factorize (PyNumber.int n) ≠ Except.error FactorizeError.zeroFactorization := by
    intro n hn
    rcases Int.lt_or_le n 0 with hneg | hpos
    · rw [factorize_int_of_neg hneg]; exact ⟨by simp, by simp⟩
    · rw [factorize_int_of_pos (by omega)]; exact ⟨by simp, by simp⟩
  refine ⟨fun q => rfl, ?_, ?_, ?_⟩
  · intro n
    by_cases hn : n = 0
    · subst hn; decide
    · exact (hint n hn).1
  · intro v
    constructor
    · intro h
      cases v with
      | float q => exact absurd h (by simp [factorize])
      | int n =>
        by_cases hn : n = 0
        · rw [hn]
        · exact absurd h (hint n hn).2
    · intro h
      subst h
      decide
  · intro v e
    rw [is_prime]
    cases h : factorize v with
    | ok l => simp
    | error e' => simp

/-- Witness for `factorize_error_taxonomy`: the float value `5/2` is rejected
with the invalid-input error. -/
theorem factorize_error_taxonomy_witness :
    factorize (PyNumber.float (5 / 2)) = Except.error FactorizeError.invalidInput :=
  factorize_error_taxonomy.1 (5 / 2)

/-- C6: the sign and unity conventions of `factorize`:
`factorize(1) = [1]`, `factorize(-1) = [-1, 1]`, `factorize(-17) = [-1, 17]`,
and for every `n < 0` the result is `-1` prepended to the factorization of
the magnitude (the source computes the magnitude as `number * (-1)`). -/
theorem factorize_sign_unity :
    factorize (PyNumber.int 1) = Except.ok [1] ∧
    factorize (PyNumber.int (-1)) = Except.ok [-1, 1] ∧
    factorize (PyNumber.int (-17)) = Except.ok [-1, 17] ∧
    (∀ n : Int, n < 0 →
      factorize (PyNumber.int n) =
        (factorize (PyNumber.int (n * (-1)))).map (fun l => -1 :: l)) := by
  refine ⟨by decide, by decide, by decide, fun n hn => ?_⟩
  rw [factorize_int_of_neg hn, factorize_int_of_pos (show (0 : Int) < n * (-1) by omega)]
  rfl

/-- Witness for `factorize_sign_unity` at the concrete input `-5`. -/
theorem factorize_sign_unity_witness :
    factorize (PyNumber.int (-5)) =
      (factorize (PyNumber.int ((-5) * (-1)))).map (fun l => -1 :: l) :=
  factorize_sign_unity.2.2.2 (-5) (by decide)

/-! ### Association-list facts for the `divisors` dict -/

theorem lookupVal_nil (key : Nat) : lookupVal [] key = none := rfl

theorem lookupVal_cons (k : Nat) (v : List Nat) (m : List (Nat × List Nat))
    (key : Nat) :
    lookupVal ((k, v) :: m) key = if k = key then some v else lookupVal m key :=
  rfl

theorem hasKey_def (m : List (Nat × List Nat)) (key : Nat) :
    hasKey m key = (lookupVal m key).isSome := rfl

theorem setdefaultAppend_cons (k : Nat) (v : List Nat)
    (m : List (Nat × List Nat)) (key p : Nat) :
    setdefaultAppend ((k, v) :: m) key p =
      if k = key then (k, v ++ [p]) :: m
      else (k, v) :: setdefaultAppend m key p := rfl

theorem dictAssign_cons (k : Nat) (w : List Nat) (m : List (Nat × List Nat))
    (key : Nat) (v : List Nat) :
    dictAssign ((k, w) :: m) key v =
      if k = key then (k, v) :: m else (k, w) :: dictAssign m key v := rfl

theorem eraseKey_cons (k : Nat) (v : List Nat) (m : List (Nat × List Nat))
    (key : Nat) :
    eraseKey ((k, v) :: m) key =
      if k = key then m else (k, v) :: eraseKey m key := rfl

theorem lookupD_cons_ne {k' key : Nat} (v : List Nat)
    (m : List (Nat × List Nat)) (h : ¬ k' = key) :
    lookupD ((k', v) :: m) key = lookupD m key := by
  rw [lookupD, lookupVal_cons, if_neg h]
  rfl

theorem lookupVal_setdefaultAppend (m : List (Nat × List Nat)) (key p k : Nat) :
    lookupVal (setdefaultAppend m key p) k =
      if k = key then some (lookupD m key ++ [p]) else lookupVal m k := by
  induction m with
  | nil =>
    show lookupVal [(key, [p])] k = _
    rw [lookupVal_cons, lookupVal_nil]
    by_cases h : k = key
    · subst h; rw [if_pos rfl, if_pos rfl]; rfl
    · rw [if_neg (fun he => h he.symm), if_neg h]
  | cons kv m ih =>
    obtain ⟨k', v⟩ := kv
    rw [setdefaultAppend_cons]
    by_cases h1 : k' = key
    · rw [if_pos h1]
      subst h1
      by_cases h2 : k = k'
      · subst h2
        rw [lookupVal_cons, if_pos rfl, if_pos rfl, lookupD, lookupVal_cons,
          if_pos rfl]
        rfl
      · rw [lookupVal_cons, if_neg (fun he => h2 he.symm), if_neg h2,
          lookupVal_cons, if_neg (fun he => h2 he.symm)]
    · rw [if_neg h1]
      by_cases h2 : k = k'
      · subst h2
        rw [lookupVal_cons, if_pos rfl, if_neg h1, lookupVal_cons, if_pos rfl]
      · rw [lookupVal_cons, if_neg (fun he => h2 he.symm), ih]
        by_cases h3 : k = key
        · rw [if_pos h3, if_pos h3, lookupD_cons_ne v m h1]
        · rw [if_neg h3, if_neg h3, lookupVal_cons,
            if_neg (fun he => h2 he.symm)]

theorem lookupVal_dictAssign (m : List (Nat × List Nat)) (key : Nat)
    (v : List Nat) (k : Nat) :
    lookupVal (dictAssign m key v) k =
      if k = key then some v else lookupVal m k := by
  induction m with
  | nil =>
    show lookupVal [(key, v)] k = _
    rw [lookupVal_cons, lookupVal_nil]
    by_cases h : k = key
    · subst h; simp
    · rw [if_neg (fun he => h he.symm), if_neg h]
  | cons kv m ih =>
    obtain ⟨k', w⟩ := kv
    rw [dictAssign_cons]
    by_cases h1 : k' = key
    · rw [if_pos h1]
      subst h1
      by_cases h2 : k = k'
      · subst h2
        rw [lookupVal_cons, if_pos rfl, if_pos rfl]
      · rw [lookupVal_cons, if_neg (fun he => h2 he.symm), if_neg h2,
          lookupVal_cons, if_neg (fun he => h2 he.symm)]
    · rw [if_neg h1]
      by_cases h2 : k = k'
      · subst h2
        rw [lookupVal_cons, if_pos rfl, if_neg h1, lookupVal_cons, if_pos rfl]
      · rw [lookupVal_cons, if_neg (fun he => h2 he.symm), ih]
        by_cases h3 : k = key
        · rw [if_pos h3, if_pos h3]
        · rw [if_neg h3, if_neg h3, lookupVal_cons,
            if_neg (fun he => h2 he.symm)]

theorem lookupVal_eraseKey_ne (m : List (Nat × List Nat)) {key k : Nat}
    (h : k ≠ key) :
    lookupVal (eraseKey m key) k = lookupVal m k := by
  induction m with
  | nil => rfl
  | cons kv m ih =>
    obtain ⟨k', v⟩ := kv
    rw [eraseKey_cons]
    by_cases h1 : k' = key
    · rw [if_pos h1, lookupVal_cons]
      subst h1
      rw [if_neg (fun he => h he.symm)]
    · rw [if_neg h1]
      by_cases h2 : k' = k
      · subst h2; rw [lookupVal_cons, lookupVal_cons, if_pos rfl, if_pos rfl]
      · rw [lookupVal_cons, lookupVal_cons, if_neg h2, if_neg h2, ih]

theorem hasKey_eq_mem_keys (m : List (Nat × List Nat)) (k : Nat) :
    hasKey m k = true ↔ k ∈ m.map Prod.fst := by
  induction m with
  | nil => simp [hasKey_def, lookupVal_nil]
  | cons kv m ih =>
    obtain ⟨k', v⟩ := kv
    rw [hasKey_def, lookupVal_cons]
    by_cases h : k' = k
    · subst h; simp
    · rw [if_neg h, ← hasKey_def]
      simp only [List.map_cons, List.mem_cons]
      constructor
      · intro h1; exact Or.inr (ih.mp h1)
      · rintro (h1 | h1)
        · exact absurd h1.symm h
        · exact ih.mpr h1

theorem lookupVal_eraseKey_self (m : List (Nat × List Nat)) (key : Nat)
    (h : (m.map Prod.fst).Nodup) :
    lookupVal (eraseKey m key) key = none := by
  induction m with
  | nil => rfl
  | cons kv m ih =>
    obtain ⟨k', v⟩ := kv
    simp only [List.map_cons, List.nodup_cons] at h
    rw [eraseKey_cons]
    by_cases h1 : k' = key
    · rw [if_pos h1]
      subst h1
      cases hl : lookupVal m k' with
      | none => rfl
      | some w =>
        exfalso
        have hk : hasKey m k' = true := by rw [hasKey_def, hl]; rfl
        exact h.1 ((hasKey_eq_mem_keys m k').mp hk)
    · rw [if_neg h1, lookupVal_cons, if_neg h1]
      exact ih h.2

theorem map_fst_setdefaultAppend (m : List (Nat × List Nat)) (key p : Nat) :
    (setdefaultAppend m key p).map Prod.fst =
      if hasKey m key then m.map Prod.fst else m.map Prod.fst ++ [key] := by
  induction m with
  | nil =>
    have hk : hasKey ([] : List (Nat × List Nat)) key = false := rfl
    rw [hk]
    simp
    rfl
  | cons kv m ih =>
    obtain ⟨k', v⟩ := kv
    rw [setdefaultAppend_cons]
    by_cases h1 : k' = key
    · rw [if_pos h1]
      have hk : hasKey ((k', v) :: m) key = true := by
        rw [hasKey_def, lookupVal_cons, if_pos h1]; rfl
      rw [hk, if_pos rfl]
      simp
    · rw [if_neg h1]
      have hk : hasKey ((k', v) :: m) key = hasKey m key := by
        rw [hasKey_def, lookupVal_cons, if_neg h1, hasKey_def]
      rw [hk]
      by_cases h2 : hasKey m key = true
      · rw [h2, if_pos rfl]
        simp only [List.map_cons]
        rw [ih, h2, if_pos rfl]
      · have h2' : hasKey m key = false := by
          cases hb : hasKey m key
          · rfl
          · exact absurd hb h2
        rw [h2']
        simp only [Bool.false_eq_true, if_neg, ite_false, List.map_cons]
        rw [ih, h2']
        simp

theorem map_fst_dictAssign (m : List (Nat × List Nat)) (key : Nat)
    (v : List Nat) :
    (dictAssign m key v).map Prod.fst =
      if hasKey m key then m.map Prod.fst else m.map Prod.fst ++ [key] := by
  induction m with
  | nil =>
    have hk : hasKey ([] : List (Nat × List Nat)) key = false := rfl
    rw [hk]
    simp
    rfl
  | cons kv m ih =>
    obtain ⟨k', w⟩ := kv
    rw [dictAssign_cons]
    by_cases h1 : k' = key
    · rw [if_pos h1]
      have hk : hasKey ((k', w) :: m) key = true := by
        rw [hasKey_def, lookupVal_cons, if_pos h1]; rfl
      rw [hk, if_pos rfl]
      simp
    · rw [if_neg h1]
      have hk : hasKey ((k', w) :: m) key = hasKey m key := by
        rw [hasKey_def, lookupVal_cons, if_neg h1, hasKey_def]
      rw [hk]
      by_cases h2 : hasKey m key = true
      · rw [h2, if_pos rfl]
        simp only [List.map_cons]
        rw [ih, h2, if_pos rfl]
      · have h2' : hasKey m key = false := by
          cases hb : hasKey m key
          · rfl
          · exact absurd hb h2
        rw [h2']
        simp only [Bool.false_eq_true, if_neg, ite_false, List.map_cons]
        rw [ih, h2']
        simp

theorem map_fst_eraseKey_sublist (m : List (Nat × List Nat)) (key : Nat) :
    ((eraseKey m key).map Prod.fst).Sublist (m.map Prod.fst) := by
  induction m with
  | nil => simp [eraseKey]
  | cons kv m ih =>
    obtain ⟨k', v⟩ := kv
    rw [eraseKey_cons]
    by_cases h1 : k' = key
    · rw [if_pos h1]
      simp only [List.map_cons]
      exact List.sublist_cons_self _ _
    · rw [if_neg h1]
      simp only [List.map_cons]
      exact ih.cons₂ k'

theorem nodup_keys_setdefaultAppend (m : List (Nat × List Nat)) (key p : Nat)
    (h : (m.map Prod.fst).Nodup) :
    ((setdefaultAppend m key p).map Prod.fst).Nodup := by
  rw [map_fst_setdefaultAppend]
  by_cases h1 : hasKey m key = true
  · rw [h1, if_pos rfl]; exact h
  · have h1' : hasKey m key = false := by
      cases hb : hasKey m key
      · rfl
      · exact absurd hb h1
    rw [h1']
    have h2 : key ∉ m.map Prod.fst := fun hm =>
      h1 ((hasKey_eq_mem_keys m key).mpr hm)
    simp [List.nodup_append, h, h2]

theorem nodup_keys_dictAssign (m : List (Nat × List Nat)) (key : Nat)
    (v : List Nat) (h : (m.map Prod.fst).Nodup) :
    ((dictAssign m key v).map Prod.fst).Nodup := by
  rw [map_fst_dictAssign]
  by_cases h1 : hasKey m key = true
  · rw [h1, if_pos rfl]; exact h
  · have h1' : hasKey m key = false := by
      cases hb : hasKey m key
      · rfl
      · exact absurd hb h1
    rw [h1']
    have h2 : key ∉ m.map Prod.fst := fun hm =>
      h1 ((hasKey_eq_mem_keys m key).mpr hm)
    simp [List.nodup_append, h, h2]

theorem nodup_keys_eraseKey (m : List (Nat × List Nat)) (key : Nat)
    (h : (m.map Prod.fst).Nodup) :
    ((eraseKey m key).map Prod.fst).Nodup :=
  h.sublist (map_fst_eraseKey_sublist m key)

theorem lookupVal_eq_some_mem {m : List (Nat × List Nat)} {k : Nat}
    {v : List Nat} (h : lookupVal m k = some v) : (k, v) ∈ m := by
  induction m with
  | nil => cases h
  | cons kv m ih =>
    obtain ⟨k', w⟩ := kv
    rw [lookupVal_cons] at h
    by_cases h1 : k' = k
    · rw [if_pos h1] at h
      injection h with h2
      subst h1
      subst h2
      exact List.mem_cons_self _ _
    · rw [if_neg h1] at h
      exact List.mem_cons_of_mem _ (ih h)

theorem mem_lookupVal_of_nodup {m : List (Nat × List Nat)} {k : Nat}
    {v : List Nat} (hnd : (m.map Prod.fst).Nodup) (h : (k, v) ∈ m) :
    lookupVal m k = some v := by
  induction m with
  | nil => cases h
  | cons kv m ih =>
    obtain ⟨k', w⟩ := kv
    simp only [List.map_cons, List.nodup_cons] at hnd
    rcases List.mem_cons.mp h with h1 | h1
    · rw [Prod.mk.injEq] at h1
      obtain ⟨h2, h3⟩ := h1
      subst h2
      subst h3
      rw [lookupVal_cons, if_pos rfl]
    · by_cases h2 : k' = k
      · subst h2
        exfalso
        apply hnd.1
        exact List.mem_map_of_mem Prod.fst h1
      · rw [lookupVal_cons, if_neg h2]
        exact ih hnd.2 h1

theorem lookupD_registerAll (L : List Nat) :
    ∀ (m : List (Nat × List Nat)) (c k : Nat),
      lookupD (registerAll m c L) k =
        lookupD m k ++ L.filter (fun p => p + c == k) := by
  induction L with
  | nil => intro m c k; simp [registerAll]
  | cons p L ih =>
    intro m c k
    have hstep : registerAll m c (p :: L) =
        registerAll (setdefaultAppend m (p + c) p) c L := rfl
    rw [hstep, ih, List.filter_cons]
    by_cases h : p + c = k
    · have hb : (p + c == k) = true := beq_iff_eq.mpr h
      rw [hb, if_pos rfl]
      rw [lookupD, lookupVal_setdefaultAppend, if_pos h.symm]
      subst h
      simp [lookupD]
    · have hb : (p + c == k) = false := beq_eq_false_iff_ne.mpr h
      rw [hb]
      simp only [Bool.false_eq_true, if_neg, ite_false]
      rw [lookupD, lookupVal_setdefaultAppend, if_neg (fun he => h he.symm)]
      rfl

theorem hasKey_registerAll (L : List Nat) :
    ∀ (m : List (Nat × List Nat)) (c k : Nat),
      hasKey (registerAll m c L) k =
        (hasKey m k || L.any (fun p => p + c == k)) := by
  induction L with
  | nil => intro m c k; simp [registerAll]
  | cons p L ih =>
    intro m c k
    have hstep : registerAll m c (p :: L) =
        registerAll (setdefaultAppend m (p + c) p) c L := rfl
    rw [hstep, ih]
    by_cases h : p + c = k
    · have h1 : hasKey (setdefaultAppend m (p + c) p) k = true := by
        rw [hasKey_def, lookupVal_setdefaultAppend, if_pos h.symm]; rfl
      have hb : (p + c == k) = true := beq_iff_eq.mpr h
      simp [h1, hb]
    · have h1 : hasKey (setdefaultAppend m (p + c) p) k = hasKey m k := by
        rw [hasKey_def, lookupVal_setdefaultAppend,
          if_neg (fun he => h he.symm), hasKey_def]
      have hb : (p + c == k) = false := beq_eq_false_iff_ne.mpr h
      simp [h1, hb]

theorem nodup_keys_registerAll (L : List Nat) :
    ∀ (m : List (Nat × List Nat)) (c : Nat), (m.map Prod.fst).Nodup →
      ((registerAll m c L).map Prod.fst).Nodup := by
  induction L with
  | nil => intro m c h; exact h
  | cons p L ih =>
    intro m c h
    exact ih _ c (nodup_keys_setdefaultAppend m (p + c) p h)

/-! ### The watched key of a prime -/

theorem keyOf_dvd (p c : Nat) : p ∣ keyOf p c := by
  rw [keyOf]
  by_cases h : c ≤ p * p
  · rw [if_pos h]; exact Dvd.intro p rfl
  · rw [if_neg h]; exact Dvd.intro _ rfl

theorem keyOf_ge {p : Nat} (hp : 0 < p) (c : Nat) : c ≤ keyOf p c := by
  rw [keyOf]
  by_cases h : c ≤ p * p
  · rwa [if_pos h]
  · rw [if_neg h]
    have hdm := Nat.div_add_mod (c + p - 1) p
    have hml : (c + p - 1) % p < p := Nat.mod_lt _ hp
    generalize hX : p * ((c + p - 1) / p) = X at hdm ⊢
    omega

theorem keyOf_ge_sq (p c : Nat) : p * p ≤ keyOf p c := by
  rcases Nat.eq_zero_or_pos p with hp | hp
  · subst hp; simp [keyOf]
  · by_cases h : c ≤ p * p
    · rw [keyOf, if_pos h]
    · have := keyOf_ge hp c
      omega

theorem keyOf_least {p c k : Nat} (hp : 0 < p) (hd : p ∣ k) (hc : c ≤ k)
    (hsq : p * p ≤ k) : keyOf p c ≤ k := by
  rw [keyOf]
  by_cases h : c ≤ p * p
  · rwa [if_pos h]
  · rw [if_neg h]
    obtain ⟨t, rfl⟩ := hd
    apply Nat.mul_le_mul_left
    rw [Nat.div_le_iff_le_mul_add_pred hp]
    generalize hX : p * t = X at hc hsq ⊢
    omega

theorem keyOf_succ_of_lt {p c : Nat} (hp : 0 < p) (h : c < keyOf p c) :
    keyOf p (c + 1) = keyOf p c := by
  apply Nat.le_antisymm
  · exact keyOf_least hp (keyOf_dvd p c) (by omega) (keyOf_ge_sq p c)
  · exact keyOf_least hp (keyOf_dvd p (c + 1))
      (le_trans (by omega) (keyOf_ge hp (c + 1))) (keyOf_ge_sq p (c + 1))

theorem keyOf_succ_of_eq {p c : Nat} (hp : 0 < p) (h : keyOf p c = c) :
    keyOf p (c + 1) = c + p := by
  have hdc : p ∣ c := by rw [← h]; exact keyOf_dvd p c
  have hsq : p * p ≤ c := by rw [← h]; exact keyOf_ge_sq p c
  apply Nat.le_antisymm
  · exact keyOf_least hp (Nat.dvd_add hdc dvd_rfl) (by omega) (by omega)
  · have hK1 : c + 1 ≤ keyOf p (c + 1) := keyOf_ge hp (c + 1)
    have hKd : p ∣ keyOf p (c + 1) := keyOf_dvd p (c + 1)
    have hsub : p ∣ keyOf p (c + 1) - c := Nat.dvd_sub' hKd hdc
    have hpos : 0 < keyOf p (c + 1) - c := by omega
    have := Nat.le_of_dvd hpos hsub
    omega

theorem keyOf_eq_self {p c : Nat} (hp : 0 < p) (hd : p ∣ c) (hsq : p * p ≤ c) :
    keyOf p c = c := by
  rw [keyOf]
  by_cases h : c ≤ p * p
  · rw [if_pos h]; omega
  · rw [if_neg h]
    obtain ⟨t, rfl⟩ := hd
    have he : p * t + p - 1 = p * t + (p - 1) := by omega
    rw [he, Nat.mul_add_div hp, Nat.div_eq_of_lt (by omega), Nat.add_zero]

/-! ### Convenience forms of the dict lemmas -/

theorem lookupD_dictAssign (m : List (Nat × List Nat)) (key : Nat)
    (v : List Nat) (k : Nat) :
    lookupD (dictAssign m key v) k = if k = key then v else lookupD m k := by
  rw [lookupD, lookupVal_dictAssign]
  by_cases h : k = key
  · rw [if_pos h, if_pos h]; rfl
  · rw [if_neg h, if_neg h]; rfl

theorem hasKey_dictAssign (m : List (Nat × List Nat)) (key : Nat)
    (v : List Nat) (k : Nat) :
    hasKey (dictAssign m key v) k = true ↔ (k = key ∨ hasKey m k = true) := by
  rw [hasKey_def, lookupVal_dictAssign]
  by_cases h : k = key
  · simp [h]
  · rw [if_neg h, ← hasKey_def]
    simp [h]

theorem lookupD_eraseKey_ne (m : List (Nat × List Nat)) {key k : Nat}
    (h : k ≠ key) : lookupD (eraseKey m key) k = lookupD m k := by
  rw [lookupD, lookupVal_eraseKey_ne m h]; rfl

theorem lookupD_eraseKey_self (m : List (Nat × List Nat)) (key : Nat)
    (hnd : (m.map Prod.fst).Nodup) : lookupD (eraseKey m key) key = [] := by
  rw [lookupD, lookupVal_eraseKey_self m key hnd]; rfl

theorem hasKey_eraseKey_ne (m : List (Nat × List Nat)) {key k : Nat}
    (h : k ≠ key) : hasKey (eraseKey m key) k = hasKey m k := by
  rw [hasKey_def, lookupVal_eraseKey_ne m h, hasKey_def]

theorem hasKey_eraseKey_self (m : List (Nat × List Nat)) (key : Nat)
    (hnd : (m.map Prod.fst).Nodup) : hasKey (eraseKey m key) key = false := by
  rw [hasKey_def, lookupVal_eraseKey_self m key hnd]; rfl

theorem hasKey_of_lookupD_ne {m : List (Nat × List Nat)} {k : Nat}
    (h : lookupD m k ≠ []) : hasKey m k = true := by
  rw [hasKey_def]
  cases hl : lookupVal m k with
  | none => rw [lookupD, hl] at h; simp at h
  | some w => rfl

/-! ### The sieve invariant -/

/-- Invariant of the `divisors` map at the top of the loop iteration with the
given `candidate` value `c`: keys are unique, value lists are nonempty and
duplicate-free, and a prime `q` appears in the list under key `k` exactly when
`q` has already been discovered (`q < c`) and `k` is its current watched key
`keyOf q c`. -/
structure SieveInv (m : List (Nat × List Nat)) (c : Nat) : Prop where
  two_le : 2 ≤ c
  keys_nodup : (m.map Prod.fst).Nodup
  ne_nil : ∀ k, hasKey m k = true → lookupD m k ≠ []
  val_nodup : ∀ k, (lookupD m k).Nodup
  mem_iff : ∀ k q, q ∈ lookupD m k ↔ Nat.Prime q ∧ q < c ∧ keyOf q c = k

theorem SieveInv.init : SieveInv [] 2 := by
  refine ⟨le_rfl, by simp, ?_, ?_, ?_⟩
  · intro k h
    rw [hasKey_def, lookupVal_nil] at h
    cases h
  · intro k
    rw [lookupD, lookupVal_nil]
    simp
  · intro k q
    rw [lookupD, lookupVal_nil]
    simp only [Option.getD_none, List.not_mem_nil, false_iff]
    rintro ⟨hq, hlt, _⟩
    have := hq.two_le
    omega

theorem SieveInv.mem_target {m : List (Nat × List Nat)} {c q : Nat}
    (h : SieveInv m c) (hq : Nat.Prime q) (hlt : q < c) :
    q ∈ lookupD m (keyOf q c) := (h.mem_iff _ q).mpr ⟨hq, hlt, rfl⟩

/-- The candidate is a key of the map exactly when it is composite. -/
theorem SieveInv.hasKey_iff {m : List (Nat × List Nat)} {c : Nat}
    (h : SieveInv m c) : hasKey m c = true ↔ ¬ Nat.Prime c := by
  constructor
  · intro hk hcp
    have hne := h.ne_nil c hk
    obtain ⟨q, hq⟩ := List.exists_mem_of_ne_nil _ hne
    obtain ⟨hqp, hqlt, hkey⟩ := (h.mem_iff c q).mp hq
    have hdvd : q ∣ c := by rw [← hkey]; exact keyOf_dvd q c
    have h2 := hqp.two_le
    rcases hcp.eq_one_or_self_of_dvd q hdvd with h1 | h1 <;> omega
  · intro hc
    have hc2 := h.two_le
    have hf : Nat.Prime c.minFac := Nat.minFac_prime (by omega)
    have hflt : c.minFac < c := minFac_lt_of_comp hc2 hc
    have hsq : c.minFac * c.minFac ≤ c := by
      have := Nat.minFac_sq_le_self (by omega) hc
      have hpow : c.minFac ^ 2 = c.minFac * c.minFac := sq c.minFac
      omega
    have hkey : keyOf c.minFac c = c := keyOf_eq_self hf.pos (Nat.minFac_dvd c) hsq
    have hmem : c.minFac ∈ lookupD m c := by
      have := h.mem_target hf hflt
      rwa [hkey] at this
    apply hasKey_of_lookupD_ne
    intro hnil
    rw [hnil] at hmem
    cases hmem

/-- While the candidate is prime, no watched key equals it, so every
discovered prime keeps its key when the candidate advances. -/
theorem keyOf_gt_of_prime {c q : Nat} (hc : Nat.Prime c) (hq : Nat.Prime q)
    (hlt : q < c) : c < keyOf q c := by
  have hge := keyOf_ge hq.pos c
  rcases Nat.lt_or_ge c (keyOf q c) with h1 | h1
  · exact h1
  · exfalso
    have heq : keyOf q c = c := by omega
    have hdvd : q ∣ c := by rw [← heq]; exact keyOf_dvd q c
    have h2 := hq.two_le
    rcases hc.eq_one_or_self_of_dvd q hdvd with h1' | h1' <;> omega

/-- Preservation of the invariant across an iteration that examines a prime
candidate: the candidate is not a key, and the new entry `c*c ↦ [c]` together
with the old entries constitute the invariant at `c + 1`. -/
theorem SieveInv.step_prime {m : List (Nat × List Nat)} {c : Nat}
    (h : SieveInv m c) (hc : Nat.Prime c) :
    lookupVal m c = none ∧ SieveInv (dictAssign m (c * c) [c]) (c + 1) := by
  have hnk : hasKey m c = false := by
    cases hb : hasKey m c
    · rfl
    · exact absurd hc (h.hasKey_iff.mp hb)
  have hnone : lookupVal m c = none := by
    rw [hasKey_def] at hnk
    cases hl : lookupVal m c with
    | none => rfl
    | some w => rw [hl] at hnk; cases hnk
  refine ⟨hnone, ?_, ?_, ?_, ?_, ?_⟩
  · have := h.two_le; omega
  · exact nodup_keys_dictAssign m (c * c) [c] h.keys_nodup
  · intro k hk
    by_cases hkc : k = c * c
    · rw [lookupD_dictAssign, if_pos hkc]; simp
    · rw [lookupD_dictAssign, if_neg hkc]
      rcases (hasKey_dictAssign m (c * c) [c] k).mp hk with h1 | h1
      · exact absurd h1 hkc
      · exact h.ne_nil k h1
  · intro k
    by_cases hkc : k = c * c
    · rw [lookupD_dictAssign, if_pos hkc]; simp
    · rw [lookupD_dictAssign, if_neg hkc]
      exact h.val_nodup k
  · have hcc : keyOf c (c + 1) = c * c := by
      have h2 := hc.two_le
      have h2c : 2 * c ≤ c * c := Nat.mul_le_mul_right c h2
      rw [keyOf, if_pos (by omega)]
    have hsucc : ∀ q, Nat.Prime q → q < c → keyOf q (c + 1) = keyOf q c :=
      fun q hq hlt => keyOf_succ_of_lt hq.pos (keyOf_gt_of_prime hc hq hlt)
    have hknotc : ∀ q, Nat.Prime q → q < c → keyOf q c ≠ c * c := by
      intro q hq hlt heq
      have hdvd : q ∣ c * c := by rw [← heq]; exact keyOf_dvd q c
      have hqc : q ∣ c := by
        rcases (Nat.Prime.dvd_mul hq).mp hdvd with h1 | h1 <;> exact h1
      have h2 := hq.two_le
      rcases hc.eq_one_or_self_of_dvd q hqc with h1 | h1 <;> omega
    intro k q
    by_cases hkc : k = c * c
    · subst hkc
      rw [lookupD_dictAssign, if_pos rfl]
      simp only [List.mem_singleton]
      constructor
      · rintro rfl
        exact ⟨hc, by omega, hcc⟩
      · rintro ⟨hq, hlt, hkey⟩
        by_cases hqc : q = c
        · exact hqc
        · exfalso
          have hlt' : q < c := by omega
          rw [hsucc q hq hlt'] at hkey
          exact hknotc q hq hlt' hkey
    · rw [lookupD_dictAssign, if_neg hkc, h.mem_iff k q]
      constructor
      · rintro ⟨hq, hlt, hkey⟩
        exact ⟨hq, by omega, by rw [hsucc q hq hlt]; exact hkey⟩
      · rintro ⟨hq, hlt, hkey⟩
        by_cases hqc : q = c
        · subst hqc
          rw [hcc] at hkey
          exact absurd hkey.symm hkc
        · have hlt' : q < c := by omega
          rw [hsucc q hq hlt'] at hkey
          exact ⟨hq, hlt', hkey⟩

/-- Preservation of the invariant across an iteration that examines a
composite candidate: its witness list is re-registered (each witness `p`
moving to key `p + c`) and the candidate's entry is deleted. -/
theorem SieveInv.step_comp {m : List (Nat × List Nat)} {c : Nat}
    (h : SieveInv m c) (hc : ¬ Nat.Prime c) :
    lookupVal m c = some (lookupD m c) ∧
    SieveInv (eraseKey (registerAll m c (lookupD m c)) c) (c + 1) := by
  have hk : hasKey m c = true := h.hasKey_iff.mpr hc
  have hsome : lookupVal m c = some (lookupD m c) := by
    rw [hasKey_def] at hk
    cases hl : lookupVal m c with
    | none => rw [hl] at hk; cases hk
    | some w => rw [lookupD, hl]; rfl
  refine ⟨hsome, ?_⟩
  have hLmem : ∀ q, q ∈ lookupD m c ↔ Nat.Prime q ∧ q < c ∧ keyOf q c = c :=
    h.mem_iff c
  have hLnd : (lookupD m c).Nodup := h.val_nodup c
  have hm1nd : ((registerAll m c (lookupD m c)).map Prod.fst).Nodup :=
    nodup_keys_registerAll (lookupD m c) m c h.keys_nodup
  have hnew : ∀ k, k ≠ c →
      lookupD (eraseKey (registerAll m c (lookupD m c)) c) k =
        lookupD m k ++ (lookupD m c).filter (fun p => p + c == k) := by
    intro k hkc
    rw [lookupD_eraseKey_ne _ hkc, lookupD_registerAll]
  have hself : lookupD (eraseKey (registerAll m c (lookupD m c)) c) c = [] :=
    lookupD_eraseKey_self _ c hm1nd
  refine ⟨by have := h.two_le; omega, ?_, ?_, ?_, ?_⟩
  · exact nodup_keys_eraseKey _ c hm1nd
  · intro k hk'
    by_cases hkc : k = c
    · rw [hkc, hasKey_eraseKey_self _ c hm1nd] at hk'
      cases hk'
    · rw [hnew k hkc]
      rw [hasKey_eraseKey_ne _ hkc, hasKey_registerAll, Bool.or_eq_true] at hk'
      rcases hk' with h1 | h1
      · intro hnil
        have := h.ne_nil k h1
        exact this (by
          rcases List.append_eq_nil.mp hnil with ⟨ha, hb⟩
          exact ha)
      · obtain ⟨p, hpL, hpk⟩ := List.any_eq_true.mp h1
        intro hnil
        rcases List.append_eq_nil.mp hnil with ⟨ha, hb⟩
        have : p ∈ (lookupD m c).filter (fun p => p + c == k) :=
          List.mem_filter.mpr ⟨hpL, hpk⟩
        rw [hb] at this
        cases this
  · intro k
    by_cases hkc : k = c
    · rw [hkc, hself]; simp
    · rw [hnew k hkc]
      apply List.Nodup.append (h.val_nodup k) (hLnd.filter _)
      intro q hq1 hq2
      obtain ⟨_, _, hkey1⟩ := (h.mem_iff k q).mp hq1
      obtain ⟨hqL, _⟩ := List.mem_filter.mp hq2
      obtain ⟨_, _, hkey2⟩ := (hLmem q).mp hqL
      exact hkc (by rw [← hkey1, hkey2])
  · intro k q
    by_cases hkc : k = c
    · rw [hkc, hself]
      simp only [List.not_mem_nil, false_iff]
      rintro ⟨hq, hlt, hkey⟩
      have := keyOf_ge hq.pos (c + 1)
      omega
    · rw [hnew k hkc, List.mem_append, List.mem_filter, hLmem q, h.mem_iff k q]
      constructor
      · rintro (⟨hq, hlt, hkey⟩ | ⟨⟨hq, hlt, hkey⟩, hbk⟩)
        · have hne : c ≠ keyOf q c := fun he => hkc (by rw [← hkey, ← he])
          have hgt : c < keyOf q c :=
            Nat.lt_of_le_of_ne (keyOf_ge hq.pos c) hne
          refine ⟨hq, by omega, ?_⟩
          rw [keyOf_succ_of_lt hq.pos hgt]
          exact hkey
        · have hkeq : q + c = k := beq_iff_eq.mp hbk
          refine ⟨hq, by omega, ?_⟩
          rw [keyOf_succ_of_eq hq.pos hkey]
          omega
      · rintro ⟨hq, hlt, hkey⟩
        have hltc : q < c := by
          rcases Nat.lt_or_ge q c with h1 | h1
          · exact h1
          · exfalso
            have hqc : q = c := by omega
            rw [hqc] at hq
            exact hc hq
        rcases Nat.eq_or_lt_of_le (keyOf_ge hq.pos c) with heq | hgt
        · right
          have hkc' : keyOf q c = c := heq.symm
          refine ⟨⟨hq, hltc, hkc'⟩, ?_⟩
          rw [keyOf_succ_of_eq hq.pos hkc'] at hkey
          exact beq_iff_eq.mpr (by omega)
        · left
          rw [keyOf_succ_of_lt hq.pos hgt] at hkey
          exact ⟨hq, hltc, hkey⟩

/-! ### The run of the sieve -/

theorem sieveStep_of_none {s : SieveState}
    (h : lookupVal s.divisors s.candidate = none) :
    sieveStep s =
      ⟨{ divisors := dictAssign s.divisors (s.candidate * s.candidate) [s.candidate],
         candidate := s.candidate + 1 }, some s.candidate⟩ := by
  rw [sieveStep, h]

theorem sieveStep_of_some {s : SieveState} {L : List Nat}
    (h : lookupVal s.divisors s.candidate = some L) :
    sieveStep s =
      ⟨{ divisors := eraseKey (registerAll s.divisors s.candidate L) s.candidate,
         candidate := s.candidate + 1 }, none⟩ := by
  rw [sieveStep, h]

theorem sieveRun_succ (n : Nat) :
    sieveRun (n + 1) =
      ⟨(sieveStep (sieveRun n).1).1,
        (sieveRun n).2 ++ (sieveStep (sieveRun n).1).2.toList⟩ := rfl

theorem primesList_zero : primesList 0 = [] := rfl

theorem primesList_succ (m : Nat) :
    primesList (m + 1) = primesList m ++ if Nat.Prime m then [m] else [] := by
  rw [primesList, primesList, List.range_succ, List.filter_append]
  congr 1
  by_cases h : Nat.Prime m <;> simp [h]

theorem primesList_two : primesList 2 = [] := by
  have h0 : primesList 1 = [] := by
    rw [primesList_succ, primesList_zero, if_neg Nat.not_prime_zero]
    rfl
  rw [primesList_succ, h0, if_neg Nat.not_prime_one]
  rfl

/-- The main induction: after `n` iterations the candidate is `n + 2`, the
invariant holds, and the yields so far are exactly the primes below `n + 2`
in increasing order. -/
theorem sieveRun_spec (n : Nat) :
    (sieveRun n).1.candidate = n + 2 ∧
    SieveInv (sieveRun n).1.divisors (n + 2) ∧
    (sieveRun n).2 = primesList (n + 2) := by
  induction n with
  | zero => exact ⟨rfl, SieveInv.init, primesList_two.symm⟩
  | succ n ih =>
    obtain ⟨hcand, hinv, hout⟩ := ih
    by_cases hp : Nat.Prime (n + 2)
    · obtain ⟨hnone, hinv'⟩ := hinv.step_prime hp
      have hnone' : lookupVal (sieveRun n).1.divisors (sieveRun n).1.candidate = none := by
        rw [hcand]; exact hnone
      rw [sieveRun_succ, sieveStep_of_none hnone']
      refine ⟨?_, ?_, ?_⟩
      · show (sieveRun n).1.candidate + 1 = n + 1 + 2
        omega
      · show SieveInv (dictAssign (sieveRun n).1.divisors
          ((sieveRun n).1.candidate * (sieveRun n).1.candidate)
          [(sieveRun n).1.candidate]) (n + 1 + 2)
        rw [hcand]
        exact hinv'
      · show (sieveRun n).2 ++ (some (sieveRun n).1.candidate).toList = primesList (n + 1 + 2)
        rw [hout, hcand]
        have he : n + 1 + 2 = (n + 2) + 1 := by omega
        rw [he, primesList_succ (n + 2), if_pos hp]
        rfl
    · obtain ⟨hsome, hinv'⟩ := hinv.step_comp hp
      have hsome' : lookupVal (sieveRun n).1.divisors (sieveRun n).1.candidate =
          some (lookupD (sieveRun n).1.divisors (n + 2)) := by
        rw [hcand]; exact hsome
      rw [sieveRun_succ, sieveStep_of_some hsome']
      refine ⟨?_, ?_, ?_⟩
      · show (sieveRun n).1.candidate + 1 = n + 1 + 2
        omega
      · show SieveInv (eraseKey (registerAll (sieveRun n).1.divisors
          (sieveRun n).1.candidate (lookupD (sieveRun n).1.divisors (n + 2)))
          (sieveRun n).1.candidate) (n + 1 + 2)
        rw [hcand]
        exact hinv'
      · show (sieveRun n).2 ++ (none : Option Nat).toList = primesList (n + 1 + 2)
        rw [hout]
        have he : n + 1 + 2 = (n + 2) + 1 := by omega
        rw [he, primesList_succ (n + 2), if_neg hp]
        simp

theorem sieveState_candidate (n : Nat) : (sieveState n).candidate = n + 2 :=
  (sieveRun_spec n).1

theorem sieveState_inv (n : Nat) : SieveInv (sieveState n).divisors (n + 2) :=
  (sieveRun_spec n).2.1

theorem sieveOutputs_eq (n : Nat) : sieveOutputs n = primesList (n + 2) :=
  (sieveRun_spec n).2.2

/-! ### Facts about `primesList` -/

theorem primesList_mem (m q : Nat) :
    q ∈ primesList m ↔ q < m ∧ Nat.Prime q := by
  rw [primesList, List.mem_filter, List.mem_range]
  simp

theorem primesList_nodup (m : Nat) : (primesList m).Nodup :=
  (List.nodup_range m).filter _

theorem primesList_pairwise (m : Nat) : (primesList m).Pairwise (· < ·) :=
  (List.pairwise_lt_range m).sublist (List.filter_sublist _)

theorem primesList_length (m : Nat) :
    (primesList m).length = Nat.count Nat.Prime m := by
  induction m with
  | zero => rfl
  | succ m ih =>
    rw [primesList_succ, Nat.count_succ, List.length_append]
    by_cases h : Nat.Prime m <;> simp [h, ih]

theorem primesList_getElem? (N : Nat) :
    ∀ k, k < (primesList N).length →
      (primesList N)[k]? = some (Nat.nth Nat.Prime k) := by
  induction N with
  | zero => intro k h; rw [primesList_zero] at h; simp at h
  | succ N ih =>
    intro k h
    rw [primesList_succ]
    by_cases hk : k < (primesList N).length
    · rw [List.getElem?_append, if_pos hk]
      exact ih k hk
    · by_cases hp : Nat.Prime N
      · rw [primesList_succ, if_pos hp, List.length_append,
          List.length_singleton] at h
        have hk' : k = (primesList N).length := by omega
        subst hk'
        rw [if_pos hp, List.getElem?_append, if_neg (lt_irrefl _), Nat.sub_self]
        have hc : (primesList N).length = Nat.count Nat.Prime N :=
          primesList_length N
        rw [hc, Nat.nth_count hp]
        rfl
      · exfalso
        rw [primesList_succ, if_neg hp, List.append_nil] at h
        exact hk h

/-! ### Counting the map entries -/

theorem length_le_sum_of_ne_nil :
    ∀ LL : List (List Nat), (∀ l ∈ LL, l ≠ []) →
      LL.length ≤ (LL.map List.length).sum := by
  intro LL
  induction LL with
  | nil => intro _; simp
  | cons l LL ih =>
    intro h
    simp only [List.map_cons, List.sum_cons, List.length_cons]
    have h1 : 1 ≤ l.length :=
      List.length_pos.mpr (h l (List.mem_cons_self _ _))
    have h2 := ih (fun l' hl' => h l' (List.mem_cons_of_mem _ hl'))
    omega

/-- Each entry of an invariant-satisfying map is its own lookup result. -/
theorem SieveInv.entry_eq_lookupD {m : List (Nat × List Nat)} {c : Nat}
    (h : SieveInv m c) {kl : Nat × List Nat} (hm : kl ∈ m) :
    lookupD m kl.1 = kl.2 := by
  have hsome : lookupVal m kl.1 = some kl.2 :=
    mem_lookupVal_of_nodup h.keys_nodup (by simpa using hm)
  rw [lookupD, hsome]
  rfl

/-- The number of entries of the map is at most the number of primes below
the candidate: every entry is nonempty and the value lists are pairwise
disjoint lists, holding each discovered prime exactly once. -/
theorem SieveInv.length_le {m : List (Nat × List Nat)} {c : Nat}
    (h : SieveInv m c) : m.length ≤ (primesList c).length := by
  have hne : ∀ l ∈ m.map Prod.snd, l ≠ [] := by
    intro l hl
    obtain ⟨kl, hkl, rfl⟩ := List.mem_map.mp hl
    have hsome : lookupVal m kl.1 = some kl.2 :=
      mem_lookupVal_of_nodup h.keys_nodup (by simpa using hkl)
    have hk : hasKey m kl.1 = true := by rw [hasKey_def, hsome]; rfl
    have hn := h.ne_nil kl.1 hk
    rw [lookupD, hsome] at hn
    exact hn
  have hW1 : m.length ≤ ((m.map Prod.snd).flatten).length := by
    rw [List.length_flatten]
    have h1 := length_le_sum_of_ne_nil (m.map Prod.snd) hne
    rw [List.length_map] at h1
    exact h1
  have hWnd : ((m.map Prod.snd).flatten).Nodup := by
    rw [List.nodup_flatten]
    constructor
    · intro l hl
      obtain ⟨kl, hkl, rfl⟩ := List.mem_map.mp hl
      rw [← h.entry_eq_lookupD hkl]
      exact h.val_nodup kl.1
    · rw [List.pairwise_map]
      have hpw : m.Pairwise (fun a b : Nat × List Nat => a.1 ≠ b.1) :=
        List.pairwise_map.mp h.keys_nodup
      apply List.Pairwise.imp_of_mem ?_ hpw
      intro a b ha hb hne' q hqa hqb
      have h1 := (h.mem_iff a.1 q).mp (by rw [h.entry_eq_lookupD ha]; exact hqa)
      have h2 := (h.mem_iff b.1 q).mp (by rw [h.entry_eq_lookupD hb]; exact hqb)
      exact hne' (by rw [← h1.2.2, ← h2.2.2])
  have hWmem : ∀ q, q ∈ (m.map Prod.snd).flatten ↔ (Nat.Prime q ∧ q < c) := by
    intro q
    rw [List.mem_flatten]
    constructor
    · rintro ⟨l, hl, hql⟩
      obtain ⟨kl, hkl, rfl⟩ := List.mem_map.mp hl
      have := (h.mem_iff kl.1 q).mp (by rw [h.entry_eq_lookupD hkl]; exact hql)
      exact ⟨this.1, this.2.1⟩
    · rintro ⟨hq, hlt⟩
      have hmem := h.mem_target hq hlt
      rw [lookupD] at hmem
      cases hl : lookupVal m (keyOf q c) with
      | none => rw [hl] at hmem; simp at hmem
      | some l =>
        rw [hl] at hmem
        refine ⟨l, ?_, hmem⟩
        exact List.mem_map_of_mem Prod.snd (lookupVal_eq_some_mem hl)
  have hperm : ((m.map Prod.snd).flatten).Perm (primesList c) := by
    rw [List.perm_ext_iff_of_nodup hWnd (primesList_nodup c)]
    intro q
    rw [hWmem q, primesList_mem]
    exact and_comm
  calc m.length ≤ ((m.map Prod.snd).flatten).length := hW1
  _ = (primesList c).length := hperm.length_eq

/-! ### Claims about `generate_primes` -/

/-- C4: the sequence produced by `generate_primes` is exactly the strictly
increasing sequence of all primes, with no duplicates: after any number of
iterations the yields are precisely the primes below the current candidate in
increasing order, the `k`-th value pulled is the `k`-th prime, and the first
ten values are `2, 3, 5, 7, 11, 13, 17, 19, 23, 29`. -/
theorem generate_primes_stream :
    (∀ n : Nat, sieveOutputs n = primesList (n + 2)) ∧
    (∀ n : Nat, (sieveOutputs n).Pairwise (· < ·)) ∧
    (∀ n k : Nat, k < (sieveOutputs n).length →
      (sieveOutputs n)[k]? = some (Nat.nth Nat.Prime k)) ∧
    sieveOutputs 28 = [2, 3, 5, 7, 11, 13, 17, 19, 23, 29] := by
  refine ⟨sieveOutputs_eq, ?_, ?_, by decide⟩
  · intro n
    rw [sieveOutputs_eq]
    exact primesList_pairwise _
  · intro n k h
    rw [sieveOutputs_eq] at h ⊢
    exact primesList_getElem? _ k h

/-- Witness for `generate_primes_stream`: the fifth value pulled (index 4) is
the fifth prime. -/
theorem generate_primes_stream_witness :
    (sieveOutputs 28)[4]? = some (Nat.nth Nat.Prime 4) :=
  generate_primes_stream.2.2.1 28 4 (by decide)

/-- C7: at the top of every loop iteration the `divisors` map has an entry
keyed by the candidate exactly when the candidate is composite, and during
that iteration the candidate's entry is removed after each of its witnesses
`p` is re-registered under `p + candidate`. -/
theorem sieve_examine_invariant : ∀ n : Nat,
    (sieveState n).candidate = n + 2 ∧
    (hasKey (sieveState n).divisors (sieveState n).candidate = true ↔
      ¬ Nat.Prime (n + 2)) ∧
    hasKey (sieveStep (sieveState n)).1.divisors (sieveState n).candidate = false ∧
    (∀ p ∈ lookupD (sieveState n).divisors (sieveState n).candidate,
      p ∈ lookupD (sieveStep (sieveState n)).1.divisors
        (p + (sieveState n).candidate)) := by
  intro n
  have hcand := sieveState_candidate n
  have hinv := sieveState_inv n
  have hnext : (sieveStep (sieveState n)).1 = sieveState (n + 1) := rfl
  have hinv' := sieveState_inv (n + 1)
  refine ⟨hcand, ?_, ?_, ?_⟩
  · rw [hcand]
    exact hinv.hasKey_iff
  · rw [hnext, hcand]
    cases hb : hasKey (sieveState (n + 1)).divisors (n + 2) with
    | false => rfl
    | true =>
      exfalso
      have hne := hinv'.ne_nil _ hb
      obtain ⟨q, hq⟩ := List.exists_mem_of_ne_nil _ hne
      obtain ⟨hqp, _, hkey⟩ := (hinv'.mem_iff _ q).mp hq
      have := keyOf_ge hqp.pos (n + 1 + 2)
      omega
  · intro p hp
    rw [hcand] at hp
    obtain ⟨hpp, hplt, hpkey⟩ := (hinv.mem_iff _ p).mp hp
    rw [hnext, hcand]
    apply (hinv'.mem_iff _ p).mpr
    refine ⟨hpp, by omega, ?_⟩
    show keyOf p ((n + 2) + 1) = p + (n + 2)
    rw [keyOf_succ_of_eq hpp.pos hpkey]
    omega

/-- Witness for `sieve_examine_invariant` at iteration 2 (candidate 4, whose
witness 2 moves to key 6). -/
theorem sieve_examine_invariant_witness :
    2 ∈ lookupD (sieveStep (sieveState 2)).1.divisors
      (2 + (sieveState 2).candidate) :=
  (sieve_examine_invariant 2).2.2.2 2 (by decide)

/-- C8 counterexample: the claimed bound — map size at most the number of
discovered primes whose square is at most the candidate — already fails after
one iteration: the state then is `candidate = 3`, `divisors = {4: [2]}`, one
key but no discovered prime with square at most 3. -/
theorem sieve_mapsize_counterexample :
    ¬ ((sieveState 1).divisors.length ≤
      ((sieveOutputs 1).filter
        (fun p => p * p ≤ (sieveState 1).candidate)).length) := by
  decide

/-- C8 (amended): the number of keys of the `divisors` map never exceeds the
total number of primes discovered so far. -/
theorem sieve_mapsize_bound :
    ∀ n : Nat, (sieveState n).divisors.length ≤ (sieveOutputs n).length := by
  intro n
  rw [sieveOutputs_eq]
  exact (sieveState_inv n).length_le

/-- C10: at the start of every iteration, each previously emitted prime `p`
occurs as a witness in exactly one value list of the map, under a key that is
a multiple of `p` and at least the current candidate; consequently no key is
below the candidate and the key count never exceeds the number of primes
emitted. -/
theorem sieve_witness_unique_invariant : ∀ n : Nat,
    (∀ p ∈ sieveOutputs n,
      (∃! k, p ∈ lookupD (sieveState n).divisors k) ∧
      (∀ k, p ∈ lookupD (sieveState n).divisors k →
        p ∣ k ∧ (sieveState n).candidate ≤ k)) ∧
    (∀ k, hasKey (sieveState n).divisors k = true →
      (sieveState n).candidate ≤ k) ∧
    (sieveState n).divisors.length ≤ (sieveOutputs n).length := by
  intro n
  have hinv := sieveState_inv n
  have hcand := sieveState_candidate n
  refine ⟨?_, ?_, ?_⟩
  · intro p hp
    rw [sieveOutputs_eq] at hp
    obtain ⟨hplt, hpp⟩ := (primesList_mem _ p).mp hp
    constructor
    · refine ⟨keyOf p (n + 2), hinv.mem_target hpp hplt, ?_⟩
      intro k hk
      obtain ⟨_, _, hkey⟩ := (hinv.mem_iff k p).mp hk
      exact hkey.symm
    · intro k hk
      obtain ⟨_, _, hkey⟩ := (hinv.mem_iff k p).mp hk
      rw [hcand, ← hkey]
      exact ⟨keyOf_dvd p (n + 2), keyOf_ge hpp.pos (n + 2)⟩
  · intro k hk
    have hne := hinv.ne_nil k hk
    obtain ⟨q, hq⟩ := List.exists_mem_of_ne_nil _ hne
    obtain ⟨hqp, _, hkey⟩ := (hinv.mem_iff k q).mp hq
    rw [hcand, ← hkey]
    exact keyOf_ge hqp.pos (n + 2)
  · rw [sieveOutputs_eq]
    exact hinv.length_le

/-- Witness for `sieve_witness_unique_invariant` at iteration 3 for the
emitted prime 2. -/
theorem sieve_witness_unique_invariant_witness :
    (∃! k, 2 ∈ lookupD (sieveState 3).divisors k) ∧
    (∀ k, 2 ∈ lookupD (sieveState 3).divisors k →
      2 ∣ k ∧ (sieveState 3).candidate ≤ k) :=
  (sieve_witness_unique_invariant 3).1 2 (by decide)

end Mpu